import Mathlib

set_option maxRecDepth 8000
set_option maxHeartbeats 1000000

/-!
Verification of the URL heuristic fraud-detection engine.

The JavaScript source consists of a Levenshtein edit-distance calculator,
a hostname extractor `getHostname`, and the rule battery `analyzeURL`.
Strings are embedded as Lean `String` and `List Char`; the JavaScript
functions are translated operation by operation.  JavaScript strings are
UTF-16 code-unit sequences while Lean chars are code points; all inputs
considered here are ASCII, where the two coincide.
-/

namespace Fraud

/-! ## Generic character-list helpers (semantics of the JS string methods) -/

/-- Test whether `sep` is a prefix of the second list
(the semantics of a JS anchored literal match). -/
def startsWithL (sep : List Char) : List Char → Bool
  | [] => sep.isEmpty
  | c :: cs =>
      match sep with
      | [] => true
      | s :: ss => s == c && startsWithL ss cs

/-- Semantics of JS `String.prototype.includes` for a literal search string. -/
def containsL (sep : List Char) : List Char → Bool
  | [] => startsWithL sep []
  | c :: cs => startsWithL sep (c :: cs) || containsL sep cs

/-- Semantics of JS `String.prototype.split` with a one-character separator. -/
def splitChar (sep : Char) : List Char → List (List Char)
  | [] => [[]]
  | c :: cs =>
      if c = sep then [] :: splitChar sep cs
      else
        match splitChar sep cs with
        | [] => [[c]]
        | g :: gs => (c :: g) :: gs

/-- Scanner for `splitOnL`, structurally recursive on a fuel argument so
that it evaluates by plain kernel reduction; the fuel is the length of the
text, which always suffices because each step consumes at least one
character. -/
def splitOnFuel (sep : List Char) : Nat → List Char → List (List Char)
  | _, [] => [[]]
  | 0, _ :: _ => [[]]
  | fuel + 1, c :: cs =>
      if sep ≠ [] ∧ startsWithL sep (c :: cs) = true then
        [] :: splitOnFuel sep fuel ((c :: cs).drop sep.length)
      else
        match splitOnFuel sep fuel cs with
        | [] => [[c]]
        | g :: gs => (c :: g) :: gs

/-- Semantics of JS `String.prototype.split` with a non-empty literal
separator string: the pieces between consecutive occurrences. -/
def splitOnL (sep hay : List Char) : List (List Char) :=
  splitOnFuel sep hay.length hay

/-- Everything after the first occurrence of `sep`, or `none` when `sep`
does not occur.  This follows the spec's words "the substring of the URL
after the first occurrence of the hostname text" and is used to compare
the spec's description with what the code computes. -/
def afterFirstOcc (sep : List Char) : List Char → Option (List Char)
  | [] => if startsWithL sep [] then some [] else none
  | c :: cs =>
      if startsWithL sep (c :: cs) then some ((c :: cs).drop sep.length)
      else afterFirstOcc sep cs

/-- ASCII lower-casing, the effect of JS `toLowerCase` on ASCII text. -/
def lowerL (l : List Char) : List Char := l.map Char.toLower

/-- ASCII letter test, the character class of the regex `[a-zA-Z]`. -/
def isAsciiLetter (c : Char) : Bool :=
  ('a' ≤ c && c ≤ 'z') || ('A' ≤ c && c ≤ 'Z')

/-- Hexadecimal digit, the character class `[0-9A-Fa-f]`. -/
def isHexDigitL (c : Char) : Bool :=
  c.isDigit || ('a' ≤ c && c ≤ 'f') || ('A' ≤ c && c ≤ 'F')

/-! ## Configuration lists (module-level constants of the source) -/

def POPULAR_DOMAINS : List String :=
  ["google.com", "facebook.com", "youtube.com", "amazon.com",
   "twitter.com", "linkedin.com", "apple.com", "github.com",
   "microsoft.com", "paypal.com", "wikipedia.org", "instagram.com"]

def SUSPICIOUS_TLDS : List String :=
  [".tk", ".ml", ".ga", ".cf", ".gq", ".xyz", ".top", ".biz"]

def FRAUD_KEYWORDS : List String :=
  ["login", "verify", "update", "secure", "bank", "account",
   "paypal", "confirm", "password", "signin", "click", "free",
   "winner", "claim", "urgent"]

/-! ## Levenshtein distance (the dynamic-programming source function) -/

/-- Three-way minimum, JS `Math.min(x, y, z)` on integers. -/
def min3 (x y z : Nat) : Nat := Nat.min (Nat.min x y) z

/-- Inner loop of the DP: fill row `i` for `j = 1..n`.  `bs` is the
remaining suffix of `b`, `ps` the cells `dp[i-1][j..n]` of the previous
row, `left` the cell `dp[i][j-1]` just written and `diag` the cell
`dp[i-1][j-1]`. -/
def levRowGo (x : Char) : List Char → List Nat → Nat → Nat → List Nat
  | [], _, _, _ => []
  | _ :: _, [], _, _ => []
  | y :: bs, p :: ps, left, diag =>
      let cost : Nat := if x = y then 0 else 1
      let cur := min3 (p + 1) (left + 1) (diag + cost)
      cur :: levRowGo x bs ps cur p

/-- Outer loop of the DP: process the remaining characters of `a`,
carrying the previous row and the row index `i`. -/
def levRows (b : List Char) : List Char → List Nat → Nat → List Nat
  | [], row, _ => row
  | x :: arest, row, i =>
      match row with
      | [] => []
      | p0 :: ptail => levRows b arest (i :: levRowGo x b ptail i p0) (i + 1)

/-- The source `levenshtein` on character lists: the two degenerate empty
cases, then the (m+1)×(n+1) table with `dp[i][0] = i`, `dp[0][j] = j` and
`dp[i][j] = min(dp[i-1][j]+1, dp[i][j-1]+1, dp[i-1][j-1]+cost)`; the
result is the last cell of the last row. -/
def levenshteinL (a b : List Char) : Nat :=
  if a = [] then b.length
  else if b = [] then a.length
  else (levRows b a (List.range (b.length + 1)) 1).getLastD 0

/-- The source `levenshtein(a, b)` on strings. -/
def levenshtein (a b : String) : Nat := levenshteinL a.data b.data

/-! ## Hostname extraction -/

/-- The test of the regex `^[a-zA-Z]+:\/\/` used by `getHostname`. -/
def isSchemePrefixed (s : String) : Bool :=
  let letters := s.data.takeWhile isAsciiLetter
  decide (letters ≠ []) && startsWithL [':', '/', '/'] (s.data.drop letters.length)

/-- Characters that make standard URL parsing reject a host (WHATWG
forbidden host code points, restricted to those that can still occur
after the authority has been cut at `/`, `?`, `#`, `@` and `:`). -/
def forbiddenHostChar (c : Char) : Bool :=
  c ≤ ' ' || c = '"' || c = '<' || c = '>' || c = '[' || c = ']' ||
  c = '^' || c = '%' || c = Char.ofNat 92 || c = Char.ofNat 96 ||
  c = Char.ofNat 123 || c = Char.ofNat 124 || c = Char.ofNat 125

/-- The part of the authority after its last `@` (WHATWG drops userinfo
up to the last `@`). -/
def afterLastAt (l : List Char) : List Char :=
  (l.reverse.takeWhile (fun c => c != '@')).reverse

/-- Modelled from the spec: the source calls the platform's `new URL(tmp)`
(WHATWG URL parsing), which is not part of this repository.  Per the spec,
the hostname is "the authority-component substring of the URL",
"`null`/absent when the input cannot be parsed as a URL".  The model takes
the substring after the `scheme://` head up to the first `/`, `?` or `#`,
drops userinfo (up to the last `@`) and any `:port` (rejecting a
non-numeric port), and rejects an empty host or a host containing a
forbidden code point such as a space.  IPv4 canonicalisation, port range
checking and punycode are not modelled; every input the claims mention is
unaffected by these. -/
def parseHost (tmp : String) : Option String :=
  if isSchemePrefixed tmp then
    let letters := tmp.data.takeWhile isAsciiLetter
    let rest := tmp.data.drop (letters.length + 3)
    let authority := rest.takeWhile (fun c => (c != '/') && (c != '?') && (c != '#'))
    let hostport := afterLastAt authority
    let host := hostport.takeWhile (fun c => c != ':')
    let portPart := hostport.drop host.length
    if host = [] then none
    else if host.any forbiddenHostChar then none
    else if portPart ≠ [] ∧ ¬ ((portPart.drop 1).all Char.isDigit = true) then none
    else some (String.mk host)
  else none

/-- The source `getHostname`: prepend `http://` when the scheme regex does
not match, parse, lower-case the hostname, `null` on failure. -/
def getHostname (url : String) : Option String :=
  let tmp := if isSchemePrefixed url then url else "http://" ++ url
  (parseHost tmp).map (fun h => String.mk (lowerL h.data))

/-! ## The rule battery -/

/-- Result record returned by `analyzeURL`. -/
structure AnalysisResult where
  score : Nat
  verdict : String
  reasons : List String
  deriving Repr, DecidableEq

/-- One conditional rule: the reasons it pushes and the weight it adds. -/
def ruleStep (c : Prop) [Decidable c] (r : String) (w : Nat) : List String × Nat :=
  if c then ([r], w) else ([], 0)

/-- Test of the regex `^(ftp|http|https):\/\/[^ "]+$`. -/
def validSchemeURL (s : String) : Bool :=
  ["ftp://", "http://", "https://"].any (fun p =>
    startsWithL p.data s.data &&
      (let rest := s.data.drop p.length
       decide (rest ≠ []) && rest.all (fun c => (c != ' ') && (c != '"'))))

/-- Test of the regex `^[^ "]+\.[^ "]+$`: no space or double quote
anywhere, and a dot that is neither the first nor the last character. -/
def bareDomainLike (s : String) : Bool :=
  decide (s.data ≠ []) && s.data.all (fun c => (c != ' ') && (c != '"')) &&
    ((s.data.drop 1).dropLast.contains '.')

/-- The malformed-protocol check (runs before hostname extraction). -/
def fmtPiece (url : String) : List String × Nat :=
  ruleStep (¬ (validSchemeURL url = true ∨ bareDomainLike url = true))
    "Malformed or missing protocol." 1

/-- Test of the regex `^\d{1,3}(\.\d{1,3}){3}$`: exactly four
dot-separated groups of one to three digits. -/
def isRawIP (h : String) : Bool :=
  let gs := splitChar '.' h.data
  decide (gs.length = 4) && gs.all (fun g =>
    decide (1 ≤ g.length) && decide (g.length ≤ 3) && g.all Char.isDigit)

/-- Search for `%` followed by two hex digits (regex `%[0-9A-Fa-f]{2}`). -/
def hasPctEnc : List Char → Bool
  | [] => false
  | c :: cs =>
      (c == '%' && (match cs with
        | h1 :: h2 :: _ => isHexDigitL h1 && isHexDigitL h2
        | _ => false)) || hasPctEnc cs

/-- Reason text pushed for a suspicious TLD. -/
def tldReason (tld : String) : String := "Suspicious TLD: " ++ tld

/-- Reason text pushed for a matched fraud keyword. -/
def kwReason (kw : String) : String := "Contains keyword \"" ++ kw ++ "\"."

/-- Reason text pushed for a typosquat match. -/
def typoReason (pd : String) : String :=
  "Looks similar to popular site \"" ++ pd ++ "\" (possible typosquat)."

/-- Semantics of JS `String.prototype.endsWith` for a literal suffix. -/
def endsWithL (suf l : List Char) : Bool :=
  startsWithL suf.reverse l.reverse

/-- The suspicious-TLD loop: first matching TLD only (the loop breaks). -/
def tldPiece (hostname : String) : List String × Nat :=
  match SUSPICIOUS_TLDS.find? (fun tld => endsWithL tld.data hostname.data) with
  | some tld => ([tldReason tld], 3)
  | none => ([], 0)

/-- The keyword loop: one reason and a weight of 2 for each configured
keyword contained case-insensitively in the full URL text. -/
def kwPiece (url : String) : List String × Nat :=
  let hits := FRAUD_KEYWORDS.filter (fun kw => containsL kw.data (lowerL url.data))
  (hits.map kwReason, 2 * hits.length)

/-- Digit-substitution and stripping used by the typosquat rule:
`0→o`, `1→l`, `3→e`, then remove characters outside `[\w.]`. -/
def normalizeHost (hostname : String) : List Char :=
  (hostname.data.map (fun c =>
      if c = '0' then 'o' else if c = '1' then 'l' else if c = '3' then 'e' else c)).filter
    (fun c => c.isAlphanum || c = '_' || c = '.')

/-- The typosquat condition for one popular domain: the float comparison
`dist / Math.max(m, n) <= 0.25` is exact at these magnitudes and is the
integer condition `4 * dist ≤ max m n`; plus the strict `!==` guard. -/
def typoCond (normalized : List Char) (pd : String) : Bool :=
  decide (4 * levenshteinL normalized pd.data ≤ Nat.max normalized.length pd.data.length)
    && decide (normalized ≠ pd.data)

/-- The typosquat loop: first qualifying popular domain only (break). -/
def typoPiece (hostname : String) : List String × Nat :=
  match POPULAR_DOMAINS.find? (typoCond (normalizeHost hostname)) with
  | some pd => ([typoReason pd], 4)
  | none => ([], 0)

/-- The path/query text the source actually uses:
`url.split(hostname)[1] || ""`. -/
def pathOf (url hostname : String) : List Char :=
  (splitOnL hostname.data url.data).getD 1 []

/-- The rules evaluated after a successful hostname extraction, in source
order, each as its list of pushed reasons and its added weight. -/
def rulePieces (url hostname : String) : List (List String × Nat) :=
  let path := pathOf url hostname
  [ ruleStep (isRawIP hostname = true) "Uses raw IP address." 5,
    ruleStep (url.length > 100) "Very long URL." 2,
    ruleStep (hostname.length > 50) "Very long hostname." 2,
    ruleStep ((splitChar '.' hostname.data).length ≥ 4) "Multiple subdomains." 2,
    tldPiece hostname,
    ruleStep (hasPctEnc url.data = true) "Contains percent-encoding." 1,
    ruleStep (url.data.contains '@' = true) "Contains '@' symbol." 4,
    ruleStep (hostname.data.countP (fun c => c == '-') ≥ 2) "Many hyphens in domain." 1,
    ruleStep (hostname.data.countP Char.isDigit ≥ 3) "Many digits in domain." 1,
    kwPiece url,
    typoPiece hostname,
    ruleStep (path.length > 80) "Long path or query." 1,
    ruleStep (path.countP (fun c => c == '?' || c == '&') ≥ 5) "Many query parameters." 1 ]

/-- Score-to-verdict mapping of the source (`score >= 8` Fraudulent,
`score >= 4` Suspicious, otherwise Safe). -/
def verdictOf (score : Nat) : String :=
  if score ≥ 8 then "Fraudulent" else if score ≥ 4 then "Suspicious" else "Safe"

/-- The source `analyzeURL`: malformed-protocol check, hostname
extraction with its short-circuit, then the rule battery; the score is
the sum of the pieces' weights and the reasons are their pushed texts in
order. -/
def analyzeURL (url : String) : AnalysisResult :=
  match getHostname url with
  | none =>
      { score := (fmtPiece url).2 + 3
        verdict := "Fraudulent"
        reasons := (fmtPiece url).1 ++ ["Cannot parse hostname."] }
  | some hostname =>
      let ps := fmtPiece url :: rulePieces url hostname
      let score := (ps.map Prod.snd).sum
      { score := score
        verdict := verdictOf score
        reasons := (ps.map Prod.fst).flatten }

/-- Severity rank of a verdict, for the monotonicity property
(Safe < Suspicious < Fraudulent). -/
def sevRank (v : String) : Nat :=
  if v = "Fraudulent" then 2 else if v = "Suspicious" then 1 else 0

/-- A URL whose hostname text `aa.bb` occurs again inside the path: the
text after the first occurrence of the hostname is 89 characters long,
while `url.split(hostname)[1]` is only `/p/`. -/
def hostRecursUrl : String := "http://aa.bb/p/aa.bb/" ++ String.mk (List.replicate 80 'x')

/-! ## Reference recursion for the edit distance

`levRec` is the textbook first-character recurrence.  The DP table of the
source fills cell `(i, j)` with the distance between the length-`i` prefix
of `a` and the length-`j` prefix of `b` using a last-character recurrence,
which is the first-character recurrence of the reversed strings; the
bridge below proves `levenshteinL a b = levRec a.reverse b.reverse`. -/

def levRec : List Char → List Char → Nat
  | [], bs => bs.length
  | _ :: arest, [] => arest.length + 1
  | x :: arest, y :: bs =>
      min3 (levRec arest (y :: bs) + 1) (levRec (x :: arest) bs + 1)
        (levRec arest bs + (if x = y then 0 else 1))
termination_by a b => a.length + b.length
decreasing_by all_goals simp_arith

theorem levRec_nil_right (a : List Char) : levRec a [] = a.length := by
  cases a <;> simp [levRec]

/-- Distance between reversed prefixes: the value the DP stores in its
cells when `s` and `t` are the processed prefixes of `a` and `b`. -/
def levSpec (s t : List Char) : Nat := levRec s.reverse t.reverse

theorem levSpec_nil_left (t : List Char) : levSpec [] t = t.length := by
  simp [levSpec, levRec]

theorem levSpec_nil_right (s : List Char) : levSpec s [] = s.length := by
  simp [levSpec, levRec_nil_right]

theorem levSpec_snoc_snoc (s t : List Char) (x y : Char) :
    levSpec (s ++ [x]) (t ++ [y]) =
      min3 (levSpec s (t ++ [y]) + 1) (levSpec (s ++ [x]) t + 1)
        (levSpec s t + (if x = y then 0 else 1)) := by
  simp only [levSpec, List.reverse_append, List.reverse_cons, List.reverse_nil,
    List.nil_append, List.singleton_append]
  rw [levRec]

/-- The cells `dp[i][j]` of the row for prefix `s`, for the columns
corresponding to the suffix `bs` of `b` after the prefix `t`. -/
def specCells (s : List Char) : List Char → List Char → List Nat
  | _, [] => []
  | t, y :: brest => levSpec s (t ++ [y]) :: specCells s (t ++ [y]) brest

theorem levRowGo_spec (x : Char) :
    ∀ (bs t s : List Char),
      levRowGo x bs (specCells s t bs) (levSpec (s ++ [x]) t) (levSpec s t) =
        specCells (s ++ [x]) t bs := by
  intro bs
  induction bs with
  | nil => intro t s; simp [specCells, levRowGo]
  | cons y brest ih =>
      intro t s
      simp only [specCells, levRowGo]
      rw [← levSpec_snoc_snoc, ih (t ++ [y]) s]

theorem levRows_spec (b : List Char) :
    ∀ (arest s : List Char),
      levRows b arest (levSpec s [] :: specCells s [] b) (levSpec s [] + 1) =
        levSpec (s ++ arest) [] :: specCells (s ++ arest) [] b := by
  intro arest
  induction arest with
  | nil => intro s; simp [levRows]
  | cons x arest' ih =>
      intro s
      simp only [levRows]
      have key : levSpec (s ++ [x]) [] = levSpec s [] + 1 := by
        rw [levSpec_nil_right, levSpec_nil_right]; simp
      rw [← key, levRowGo_spec x b [] s, ih (s ++ [x])]
      simp [List.append_assoc]

theorem specCells_nil (b : List Char) :
    ∀ t : List Char, specCells [] t b = List.range' (t.length + 1) b.length := by
  induction b with
  | nil => intro t; simp [specCells, List.range']
  | cons y brest ih =>
      intro t
      show levSpec [] (t ++ [y]) :: specCells [] (t ++ [y]) brest =
        List.range' (t.length + 1) (brest.length + 1)
      rw [List.range'_succ, levSpec_nil_left, ih (t ++ [y])]
      simp

theorem initRow (b : List Char) :
    List.range (b.length + 1) = levSpec [] [] :: specCells [] [] b := by
  rw [List.range_eq_range', specCells_nil]
  simp [List.range', levSpec_nil_left]

theorem lastCell (s : List Char) :
    ∀ (bs t : List Char), (levSpec s t :: specCells s t bs).getLast? = some (levSpec s (t ++ bs)) := by
  intro bs
  induction bs with
  | nil => intro t; simp [specCells]
  | cons y brest ih =>
      intro t
      simp only [specCells]
      rw [List.getLast?_cons_cons]
      have := ih (t ++ [y])
      simpa [List.append_assoc] using this

/-- Bridge: the source's DP computes the reference recurrence on the
reversed inputs. -/
theorem levenshteinL_eq_levRec (a b : List Char) :
    levenshteinL a b = levRec a.reverse b.reverse := by
  by_cases ha : a = []
  · subst ha; simp [levenshteinL, levRec]
  · by_cases hb : b = []
    · subst hb; simp [levenshteinL, ha, levRec_nil_right]
    · have h1 : levRows b a (List.range (b.length + 1)) 1 =
          levSpec a [] :: specCells a [] b := by
        rw [initRow]
        have := levRows_spec b a []
        simpa [levSpec_nil_left] using this
      have h2 := lastCell a b []
      simp only [levenshteinL, ha, hb, if_false, h1]
      rw [List.getLastD_eq_getLast?, h2]
      simp [levSpec]

/-! ## Single-character edits and edit sequences -/

/-- One edit: insertion, deletion, or substitution of a single character
at an arbitrary position. -/
inductive EStep : List Char → List Char → Prop
  | ins (u v : List Char) (c : Char) : EStep (u ++ v) (u ++ c :: v)
  | del (u v : List Char) (c : Char) : EStep (u ++ c :: v) (u ++ v)
  | subst (u v : List Char) (c d : Char) : EStep (u ++ c :: v) (u ++ d :: v)

/-- A sequence of `n` single edits transforming the first list into the
second. -/
inductive EditSeq : Nat → List Char → List Char → Prop
  | refl (a : List Char) : EditSeq 0 a a
  | step {n : Nat} {a b c : List Char} : EStep a b → EditSeq n b c → EditSeq (n + 1) a c

theorem EditSeq.snoc {n : Nat} {a b c : List Char} (h : EditSeq n a b) (e : EStep b c) :
    EditSeq (n + 1) a c := by
  induction h with
  | refl a => exact .step e (.refl c)
  | step e0 _ ih => exact .step e0 (ih e)

theorem estep_cons_left {a b : List Char} (x : Char) (h : EStep a b) :
    EStep (x :: a) (x :: b) := by
  cases h with
  | ins u v c => exact EStep.ins (x :: u) v c
  | del u v c => exact EStep.del (x :: u) v c
  | subst u v c d => exact EStep.subst (x :: u) v c d

theorem editSeq_cons_left {n : Nat} {a b : List Char} (x : Char) (h : EditSeq n a b) :
    EditSeq n (x :: a) (x :: b) := by
  induction h with
  | refl a => exact .refl (x :: a)
  | step e _ ih => exact .step (estep_cons_left x e) ih

theorem editSeq_insertAll : ∀ b : List Char, EditSeq b.length [] b := by
  intro b
  induction b with
  | nil => exact .refl []
  | cons y brest ih =>
      exact .step (EStep.ins [] [] y) (editSeq_cons_left y ih)

theorem editSeq_deleteAll : ∀ a : List Char, EditSeq a.length a [] := by
  intro a
  induction a with
  | nil => exact .refl []
  | cons x arest ih => exact .step (EStep.del [] arest x) ih

theorem min3_cases (x y z : Nat) : min3 x y z = x ∨ min3 x y z = y ∨ min3 x y z = z := by
  simp only [min3, Nat.min_def]
  split_ifs <;> simp

theorem min3_le_left (x y z : Nat) : min3 x y z ≤ x := by
  simp only [min3, Nat.min_def]; split_ifs <;> omega

theorem min3_le_mid (x y z : Nat) : min3 x y z ≤ y := by
  simp only [min3, Nat.min_def]; split_ifs <;> omega

theorem min3_le_right (x y z : Nat) : min3 x y z ≤ z := by
  simp only [min3, Nat.min_def]; split_ifs <;> omega

theorem le_min3_succ {w x y z : Nat} (hx : w ≤ x + 1) (hy : w ≤ y + 1) (hz : w ≤ z + 1) :
    w ≤ min3 x y z + 1 := by
  simp only [min3, Nat.min_def]; split_ifs <;> omega

theorem min3_mono_succ {x y z x' y' z' : Nat} (hx : x ≤ x' + 1) (hy : y ≤ y' + 1)
    (hz : z ≤ z' + 1) : min3 x y z ≤ min3 x' y' z' + 1 := by
  simp only [min3, Nat.min_def]; split_ifs <;> omega

/-- Achievability: an edit sequence of length `levRec a b` from `a` to `b`
exists. -/
theorem editSeq_levRec : ∀ a b : List Char, EditSeq (levRec a b) a b := by
  intro a
  induction a with
  | nil =>
      intro b
      simpa [levRec] using editSeq_insertAll b
  | cons x arest iha =>
      intro b
      induction b with
      | nil =>
          rw [levRec_nil_right]
          exact editSeq_deleteAll (x :: arest)
      | cons y brest ihb =>
          simp only [levRec]
          rcases min3_cases (levRec arest (y :: brest) + 1) (levRec (x :: arest) brest + 1)
            (levRec arest brest + if x = y then 0 else 1) with h | h | h <;> rw [h]
          · exact .step (EStep.del [] arest x) (iha (y :: brest))
          · exact ihb.snoc (EStep.ins [] brest y)
          · by_cases hxy : x = y
            · subst hxy
              simpa using editSeq_cons_left x (iha brest)
            · simp only [if_neg hxy]
              exact .step (EStep.subst [] arest x y) (editSeq_cons_left y (iha brest))

theorem levRec_self : ∀ a : List Char, levRec a a = 0 := by
  intro a
  induction a with
  | nil => simp [levRec]
  | cons x arest ih =>
      simp only [levRec, if_true]
      rw [ih]
      have h3 := min3_le_right (levRec arest (x :: arest) + 1) (levRec (x :: arest) arest + 1)
        (0 + 0)
      omega

theorem levRec_del_head (x : Char) (v : List Char) :
    ∀ b : List Char, levRec (x :: v) b ≤ levRec v b + 1 := by
  intro b
  cases b with
  | nil => simp [levRec, levRec_nil_right]
  | cons y bs =>
      simp only [levRec]
      exact min3_le_left _ _ _

theorem levRec_ins_head (y : Char) :
    ∀ (a bs : List Char), levRec a (y :: bs) ≤ levRec a bs + 1 := by
  intro a bs
  cases a with
  | nil => simp [levRec]
  | cons x arest =>
      simp only [levRec]
      exact min3_le_mid _ _ _

theorem levRec_le_del_head (x : Char) (v : List Char) :
    ∀ b : List Char, levRec v b ≤ levRec (x :: v) b + 1 := by
  intro b
  induction b with
  | nil => simp only [levRec, levRec_nil_right, List.length_cons]; omega
  | cons y bs ih =>
      have h2 : levRec v (y :: bs) ≤ levRec v bs + 1 := levRec_ins_head y v bs
      simp only [levRec]
      exact le_min3_succ (by omega) (by omega) (by split_ifs <;> omega)

theorem levRec_subst_head (c d : Char) (v : List Char) :
    ∀ b : List Char, levRec (c :: v) b ≤ levRec (d :: v) b + 1 := by
  intro b
  induction b with
  | nil => simp [levRec]
  | cons y bs ih =>
      simp only [levRec]
      apply min3_mono_succ (by omega) (by omega)
      split_ifs <;> omega

theorem levRec_consL_mono {s t : List Char} (x : Char)
    (H : ∀ b, levRec s b ≤ levRec t b + 1) :
    ∀ b : List Char, levRec (x :: s) b ≤ levRec (x :: t) b + 1 := by
  intro b
  induction b with
  | nil =>
      have := H []
      rw [levRec_nil_right, levRec_nil_right] at this
      simp only [levRec]
      omega
  | cons y bs ih =>
      simp only [levRec]
      apply min3_mono_succ
      · have := H (y :: bs); omega
      · omega
      · have := H bs; omega

theorem levRec_ins_mid (ch : Char) (v : List Char) :
    ∀ (u b : List Char), levRec (u ++ v) b ≤ levRec (u ++ ch :: v) b + 1 := by
  intro u
  induction u with
  | nil => intro b; simpa using levRec_le_del_head ch v b
  | cons z u' ih => intro b; simpa using levRec_consL_mono z ih b

theorem levRec_del_mid (ch : Char) (v : List Char) :
    ∀ (u b : List Char), levRec (u ++ ch :: v) b ≤ levRec (u ++ v) b + 1 := by
  intro u
  induction u with
  | nil => intro b; simpa using levRec_del_head ch v b
  | cons z u' ih => intro b; simpa using levRec_consL_mono z ih b

theorem levRec_subst_mid (c d : Char) (v : List Char) :
    ∀ (u b : List Char), levRec (u ++ c :: v) b ≤ levRec (u ++ d :: v) b + 1 := by
  intro u
  induction u with
  | nil => intro b; simpa using levRec_subst_head c d v b
  | cons z u' ih => intro b; simpa using levRec_consL_mono z ih b

theorem estep_levRec_le {a a' : List Char} (h : EStep a a') (b : List Char) :
    levRec a b ≤ levRec a' b + 1 := by
  cases h with
  | ins u v c => exact levRec_ins_mid c v u b
  | del u v c => exact levRec_del_mid c v u b
  | subst u v c d => exact levRec_subst_mid c d v u b

/-- Optimality: no edit sequence is shorter than `levRec`. -/
theorem editSeq_levRec_le {n : Nat} {a b : List Char} (h : EditSeq n a b) :
    levRec a b ≤ n := by
  induction h with
  | refl a => simp [levRec_self]
  | @step m p q r e rest ih =>
      have h1 := estep_levRec_le e r
      omega

theorem estep_rev {a b : List Char} (h : EStep a b) : EStep a.reverse b.reverse := by
  cases h with
  | ins u v c =>
      have := EStep.ins v.reverse u.reverse c
      simpa [List.reverse_append] using this
  | del u v c =>
      have := EStep.del v.reverse u.reverse c
      simpa [List.reverse_append] using this
  | subst u v c d =>
      have := EStep.subst v.reverse u.reverse c d
      simpa [List.reverse_append] using this

theorem editSeq_rev {n : Nat} {a b : List Char} (h : EditSeq n a b) :
    EditSeq n a.reverse b.reverse := by
  induction h with
  | refl a => exact .refl a.reverse
  | step e _ ih => exact .step (estep_rev e) ih

/-- The source `levenshtein` realises an edit sequence of its own length. -/
theorem levenshtein_achieves (a b : String) :
    EditSeq (levenshtein a b) a.data b.data := by
  have h := editSeq_rev (editSeq_levRec a.data.reverse b.data.reverse)
  rw [levenshtein, levenshteinL_eq_levRec]
  simpa using h

/-- The source `levenshtein` is a lower bound on every edit sequence. -/
theorem levenshtein_minimal (a b : String) {n : Nat} (h : EditSeq n a.data b.data) :
    levenshtein a b ≤ n := by
  rw [levenshtein, levenshteinL_eq_levRec]
  exact editSeq_levRec_le (editSeq_rev h)

/-! ## Score/reason invariants of the rule battery -/

/-- The fixed weight attached to each possible reason text. -/
def weightOfReason (r : String) : Nat :=
  if r = "Malformed or missing protocol." then 1
  else if r = "Cannot parse hostname." then 3
  else if r = "Uses raw IP address." then 5
  else if r = "Very long URL." then 2
  else if r = "Very long hostname." then 2
  else if r = "Multiple subdomains." then 2
  else if SUSPICIOUS_TLDS.any (fun t => r == tldReason t) then 3
  else if r = "Contains percent-encoding." then 1
  else if r = "Contains '@' symbol." then 4
  else if r = "Many hyphens in domain." then 1
  else if r = "Many digits in domain." then 1
  else if FRAUD_KEYWORDS.any (fun k => r == kwReason k) then 2
  else if POPULAR_DOMAINS.any (fun p => r == typoReason p) then 4
  else if r = "Long path or query." then 1
  else if r = "Many query parameters." then 1
  else 0

theorem ruleStep_weight (c : Prop) [Decidable c] (r : String) (w : Nat)
    (hw : weightOfReason r = w) :
    ((ruleStep c r w).1.map weightOfReason).sum = (ruleStep c r w).2 := by
  by_cases hc : c <;> simp [ruleStep, hc, hw]

theorem map_sum_const {α : Type} (f : α → Nat) (k : Nat) :
    ∀ l : List α, (∀ x ∈ l, f x = k) → (l.map f).sum = k * l.length := by
  intro l
  induction l with
  | nil => simp
  | cons x xs ih =>
      intro hall
      simp only [List.map_cons, List.sum_cons, List.length_cons]
      rw [hall x (by simp), ih (fun y hy => hall y (by simp [hy]))]
      ring

theorem tld_weight : ∀ t ∈ SUSPICIOUS_TLDS, weightOfReason (tldReason t) = 3 := by decide

theorem kw_weight : ∀ k ∈ FRAUD_KEYWORDS, weightOfReason (kwReason k) = 2 := by decide

theorem typo_weight : ∀ p ∈ POPULAR_DOMAINS, weightOfReason (typoReason p) = 4 := by decide

theorem tldPiece_weight (h : String) :
    ((tldPiece h).1.map weightOfReason).sum = (tldPiece h).2 := by
  unfold tldPiece
  cases hf : SUSPICIOUS_TLDS.find? (fun tld => endsWithL tld.data h.data) with
  | none => simp
  | some t =>
      have ht := List.mem_of_find?_eq_some hf
      simp [tld_weight t ht]

theorem typoPiece_weight (h : String) :
    ((typoPiece h).1.map weightOfReason).sum = (typoPiece h).2 := by
  unfold typoPiece
  cases hf : POPULAR_DOMAINS.find? (typoCond (normalizeHost h)) with
  | none => simp
  | some p =>
      have hp := List.mem_of_find?_eq_some hf
      simp [typo_weight p hp]

theorem kwPiece_weight (url : String) :
    ((kwPiece url).1.map weightOfReason).sum = (kwPiece url).2 := by
  unfold kwPiece
  simp only [List.map_map]
  rw [map_sum_const (weightOfReason ∘ kwReason) 2]
  intro x hx
  exact kw_weight x (List.mem_of_mem_filter hx)

theorem fmtPiece_weight (url : String) :
    ((fmtPiece url).1.map weightOfReason).sum = (fmtPiece url).2 :=
  ruleStep_weight _ _ _ (by decide)

theorem pieces_weight_sound (url h : String) :
    ∀ p ∈ fmtPiece url :: rulePieces url h, (p.1.map weightOfReason).sum = p.2 := by
  intro p hp
  simp only [rulePieces, List.mem_cons, List.not_mem_nil, or_false] at hp
  rcases hp with rfl | rfl | rfl | rfl | rfl | rfl | rfl | rfl | rfl | rfl | rfl | rfl | rfl | rfl
  · exact fmtPiece_weight url
  · exact ruleStep_weight _ _ _ (by decide)
  · exact ruleStep_weight _ _ _ (by decide)
  · exact ruleStep_weight _ _ _ (by decide)
  · exact ruleStep_weight _ _ _ (by decide)
  · exact tldPiece_weight h
  · exact ruleStep_weight _ _ _ (by decide)
  · exact ruleStep_weight _ _ _ (by decide)
  · exact ruleStep_weight _ _ _ (by decide)
  · exact ruleStep_weight _ _ _ (by decide)
  · exact kwPiece_weight url
  · exact typoPiece_weight h
  · exact ruleStep_weight _ _ _ (by decide)
  · exact ruleStep_weight _ _ _ (by decide)

theorem flatten_map_sum (w : String → Nat) :
    ∀ ps : List (List String × Nat), (∀ p ∈ ps, (p.1.map w).sum = p.2) →
      ((ps.map Prod.fst).flatten.map w).sum = (ps.map Prod.snd).sum := by
  intro ps
  induction ps with
  | nil => simp
  | cons q qs ih =>
      intro hall
      simp only [List.map_cons, List.flatten_cons, List.map_append, List.sum_append,
        List.sum_cons]
      rw [hall q (by simp), ih (fun p hp => hall p (by simp [hp]))]

/-- The score returned by `analyzeURL` is the sum of the weights of the
reasons it returns. -/
theorem score_eq_weights (url : String) :
    (analyzeURL url).score = ((analyzeURL url).reasons.map weightOfReason).sum := by
  unfold analyzeURL
  cases hg : getHostname url with
  | none =>
      simp only [List.map_append, List.sum_append]
      rw [fmtPiece_weight url]
      simp [weightOfReason]
  | some h =>
      simp only
      rw [flatten_map_sum weightOfReason _ (pieces_weight_sound url h)]

/-- The verdict: forced `Fraudulent` on hostname-parse failure, otherwise
the pure function `verdictOf` of the final score. -/
theorem verdict_cases (url : String) :
    (getHostname url = none → (analyzeURL url).verdict = "Fraudulent") ∧
      (∀ h, getHostname url = some h →
        (analyzeURL url).verdict = verdictOf (analyzeURL url).score) := by
  unfold analyzeURL
  cases hg : getHostname url with
  | none => simp
  | some h => simp

/-! ## Shape of the reasons list -/

/-- All reason texts the engine can ever emit, in emission order. -/
def allReasons : List String :=
  "Malformed or missing protocol." :: "Cannot parse hostname." ::
  "Uses raw IP address." :: "Very long URL." :: "Very long hostname." ::
  "Multiple subdomains." ::
  (SUSPICIOUS_TLDS.map tldReason ++
    ("Contains percent-encoding." :: "Contains '@' symbol." ::
     "Many hyphens in domain." :: "Many digits in domain." ::
     (FRAUD_KEYWORDS.map kwReason ++
       (POPULAR_DOMAINS.map typoReason ++
         ["Long path or query.", "Many query parameters."]))))

theorem allReasons_nodup : allReasons.Nodup := by decide

theorem ruleStep_sublist (c : Prop) [Decidable c] (r : String) (w : Nat) :
    (ruleStep c r w).1.Sublist [r] := by
  by_cases hc : c <;> simp [ruleStep, hc]

theorem tldPiece_sublist (h : String) :
    (tldPiece h).1.Sublist (SUSPICIOUS_TLDS.map tldReason) := by
  unfold tldPiece
  cases hf : SUSPICIOUS_TLDS.find? (fun tld => endsWithL tld.data h.data) with
  | none => simp
  | some t =>
      simpa using List.singleton_sublist.mpr
        (List.mem_map_of_mem tldReason (List.mem_of_find?_eq_some hf))

theorem typoPiece_sublist (h : String) :
    (typoPiece h).1.Sublist (POPULAR_DOMAINS.map typoReason) := by
  unfold typoPiece
  cases hf : POPULAR_DOMAINS.find? (typoCond (normalizeHost h)) with
  | none => simp
  | some p =>
      simpa using List.singleton_sublist.mpr
        (List.mem_map_of_mem typoReason (List.mem_of_find?_eq_some hf))

theorem kwPiece_sublist (url : String) :
    (kwPiece url).1.Sublist (FRAUD_KEYWORDS.map kwReason) := by
  unfold kwPiece
  exact (List.filter_sublist _).map kwReason

/-- Every reasons list is a subsequence of `allReasons`: the rules fire in
a fixed order, each at most once per possible reason text. -/
theorem reasons_sublist (url : String) : (analyzeURL url).reasons.Sublist allReasons := by
  unfold analyzeURL
  cases hg : getHostname url with
  | none =>
      simp only [allReasons]
      exact List.Sublist.append (ruleStep_sublist _ _ _)
        (List.Sublist.cons₂ _ (List.nil_sublist _))
  | some h =>
      simp only [allReasons, rulePieces, List.map_cons, List.map_nil, List.flatten_cons,
        List.flatten_nil, List.append_nil]
      exact List.Sublist.append (ruleStep_sublist _ _ _)
        (List.Sublist.cons _
          (List.Sublist.append (ruleStep_sublist _ _ _)
            (List.Sublist.append (ruleStep_sublist _ _ _)
              (List.Sublist.append (ruleStep_sublist _ _ _)
                (List.Sublist.append (ruleStep_sublist _ _ _)
                  (List.Sublist.append (tldPiece_sublist h)
                    (List.Sublist.append (ruleStep_sublist _ _ _)
                      (List.Sublist.append (ruleStep_sublist _ _ _)
                        (List.Sublist.append (ruleStep_sublist _ _ _)
                          (List.Sublist.append (ruleStep_sublist _ _ _)
                            (List.Sublist.append (kwPiece_sublist url)
                              (List.Sublist.append (typoPiece_sublist h)
                                (List.Sublist.append (ruleStep_sublist _ _ _)
                                  (ruleStep_sublist _ _ _))))))))))))))

theorem reasons_nodup (url : String) : (analyzeURL url).reasons.Nodup :=
  (reasons_sublist url).nodup allReasons_nodup

/-! ## Membership characterizations -/

theorem mem_ruleStep (c : Prop) [Decidable c] (r w : _) (r' : String) :
    r' ∈ (ruleStep c r w).1 ↔ c ∧ r' = r := by
  by_cases hc : c <;> simp [ruleStep, hc]

theorem mem_reasons_iff (url h : String) (hg : getHostname url = some h) (r : String) :
    r ∈ (analyzeURL url).reasons ↔
      r ∈ (fmtPiece url).1 ∨ ∃ p ∈ rulePieces url h, r ∈ p.1 := by
  simp [analyzeURL, hg, List.mem_flatten]

theorem mem_kwPiece (url : String) (r : String) :
    r ∈ (kwPiece url).1 ↔
      ∃ kw ∈ FRAUD_KEYWORDS, containsL kw.data (lowerL url.data) = true ∧ r = kwReason kw := by
  simp only [kwPiece, List.mem_map, List.mem_filter]
  constructor
  · rintro ⟨kw, ⟨hm, hc⟩, rfl⟩; exact ⟨kw, hm, hc, rfl⟩
  · rintro ⟨kw, hm, hc, rfl⟩; exact ⟨kw, ⟨hm, hc⟩, rfl⟩

theorem mem_tldPiece (h : String) (r : String) :
    r ∈ (tldPiece h).1 ↔
      ∃ t, SUSPICIOUS_TLDS.find? (fun tld => endsWithL tld.data h.data) = some t ∧
        r = tldReason t := by
  unfold tldPiece
  cases hf : SUSPICIOUS_TLDS.find? (fun tld => endsWithL tld.data h.data) <;> simp [hf]

theorem mem_typoPiece (h : String) (r : String) :
    r ∈ (typoPiece h).1 ↔
      ∃ p, POPULAR_DOMAINS.find? (typoCond (normalizeHost h)) = some p ∧
        r = typoReason p := by
  unfold typoPiece
  cases hf : POPULAR_DOMAINS.find? (typoCond (normalizeHost h)) <;> simp [hf]

theorem notMem_tldPiece {r : String} (hr : ∀ t ∈ SUSPICIOUS_TLDS, r ≠ tldReason t)
    (h : String) : r ∉ (tldPiece h).1 := by
  rw [mem_tldPiece]
  rintro ⟨t, hf, rfl⟩
  exact hr t (List.mem_of_find?_eq_some hf) rfl

theorem notMem_typoPiece {r : String} (hr : ∀ p ∈ POPULAR_DOMAINS, r ≠ typoReason p)
    (h : String) : r ∉ (typoPiece h).1 := by
  rw [mem_typoPiece]
  rintro ⟨p, hf, rfl⟩
  exact hr p (List.mem_of_find?_eq_some hf) rfl

/-- First-match characterization of `List.find?`: the found element
satisfies the test and everything before it fails it. -/
theorem find?_first {α : Type} (p : α → Bool) :
    ∀ (l : List α) (a : α), l.find? p = some a →
      ∃ l₁ l₂, l = l₁ ++ a :: l₂ ∧ p a = true ∧ ∀ x ∈ l₁, p x = false := by
  intro l
  induction l with
  | nil => intro a h; simp at h
  | cons x xs ih =>
      intro a h
      by_cases hp : p x
      · rw [List.find?_cons_of_pos _ hp] at h
        obtain rfl : x = a := by injection h
        exact ⟨[], xs, rfl, hp, by simp⟩
      · rw [List.find?_cons_of_neg _ (by simpa using hp)] at h
        obtain ⟨l₁, l₂, rfl, hpa, hall⟩ := ih a h
        refine ⟨x :: l₁, l₂, rfl, hpa, ?_⟩
        intro y hy
        rcases List.mem_cons.mp hy with rfl | hy'
        · simpa using hp
        · exact hall y hy'

theorem kw_ne_tld : ∀ k ∈ FRAUD_KEYWORDS, ∀ t ∈ SUSPICIOUS_TLDS,
    kwReason k ≠ tldReason t := by decide

theorem kw_ne_typo : ∀ k ∈ FRAUD_KEYWORDS, ∀ p ∈ POPULAR_DOMAINS,
    kwReason k ≠ typoReason p := by decide

theorem kw_inj : ∀ a ∈ FRAUD_KEYWORDS, ∀ b ∈ FRAUD_KEYWORDS,
    kwReason a = kwReason b → a = b := by decide

theorem kw_ne_fixed : ∀ k ∈ FRAUD_KEYWORDS,
    ∀ s ∈ ["Malformed or missing protocol.", "Uses raw IP address.", "Very long URL.",
      "Very long hostname.", "Multiple subdomains.", "Contains percent-encoding.",
      "Contains '@' symbol.", "Many hyphens in domain.", "Many digits in domain.",
      "Long path or query.", "Many query parameters."], kwReason k ≠ s := by decide

/-- Presence of the reason for one configured keyword is equivalent to the
case-insensitive substring test of the source, for any URL whose hostname
parses. -/
theorem kw_mem (url h kw : String) (hg : getHostname url = some h)
    (hkw : kw ∈ FRAUD_KEYWORDS) :
    kwReason kw ∈ (analyzeURL url).reasons ↔
      containsL kw.data (lowerL url.data) = true := by
  rw [mem_reasons_iff url h hg]
  constructor
  · rintro (hf | ⟨p, hp, hin⟩)
    · rw [fmtPiece, mem_ruleStep] at hf
      exact absurd hf.2 (kw_ne_fixed kw hkw _ (by decide))
    · simp only [rulePieces, List.mem_cons, List.not_mem_nil, or_false] at hp
      rcases hp with rfl|rfl|rfl|rfl|rfl|rfl|rfl|rfl|rfl|rfl|rfl|rfl|rfl
      · rw [mem_ruleStep] at hin; exact absurd hin.2 (kw_ne_fixed kw hkw _ (by decide))
      · rw [mem_ruleStep] at hin; exact absurd hin.2 (kw_ne_fixed kw hkw _ (by decide))
      · rw [mem_ruleStep] at hin; exact absurd hin.2 (kw_ne_fixed kw hkw _ (by decide))
      · rw [mem_ruleStep] at hin; exact absurd hin.2 (kw_ne_fixed kw hkw _ (by decide))
      · rw [mem_tldPiece] at hin
        obtain ⟨t, hf2, he⟩ := hin
        exact absurd he (kw_ne_tld kw hkw t (List.mem_of_find?_eq_some hf2))
      · rw [mem_ruleStep] at hin; exact absurd hin.2 (kw_ne_fixed kw hkw _ (by decide))
      · rw [mem_ruleStep] at hin; exact absurd hin.2 (kw_ne_fixed kw hkw _ (by decide))
      · rw [mem_ruleStep] at hin; exact absurd hin.2 (kw_ne_fixed kw hkw _ (by decide))
      · rw [mem_ruleStep] at hin; exact absurd hin.2 (kw_ne_fixed kw hkw _ (by decide))
      · rw [mem_kwPiece] at hin
        obtain ⟨k, hk, hc, he⟩ := hin
        have hkkw := kw_inj kw hkw k hk he
        rw [hkkw]; exact hc
      · rw [mem_typoPiece] at hin
        obtain ⟨p2, hf2, he⟩ := hin
        exact absurd he (kw_ne_typo kw hkw p2 (List.mem_of_find?_eq_some hf2))
      · rw [mem_ruleStep] at hin; exact absurd hin.2 (kw_ne_fixed kw hkw _ (by decide))
      · rw [mem_ruleStep] at hin; exact absurd hin.2 (kw_ne_fixed kw hkw _ (by decide))
  · intro hc
    right
    refine ⟨kwPiece url, by simp [rulePieces], ?_⟩
    rw [mem_kwPiece]
    exact ⟨kw, hkw, hc, rfl⟩

/-- Presence of the long-path reason is equivalent to the length test on
the `url.split(hostname)[1] || ""` text. -/
theorem longPath_mem (url h : String) (hg : getHostname url = some h) :
    "Long path or query." ∈ (analyzeURL url).reasons ↔ (pathOf url h).length > 80 := by
  rw [mem_reasons_iff url h hg]
  have h1 := notMem_tldPiece (r := "Long path or query.") (by decide) h
  have h2 := notMem_typoPiece (r := "Long path or query.") (by decide) h
  have h3 : "Long path or query." ∉ (kwPiece url).1 := by
    rw [mem_kwPiece]
    rintro ⟨k, hk, _, he⟩
    exact kw_ne_fixed k hk _ (by decide) he.symm
  constructor
  · rintro (hf | ⟨p, hp, hin⟩)
    · rw [fmtPiece, mem_ruleStep] at hf
      exact absurd hf.2 (by decide)
    · simp only [rulePieces, List.mem_cons, List.not_mem_nil, or_false] at hp
      rcases hp with rfl|rfl|rfl|rfl|rfl|rfl|rfl|rfl|rfl|rfl|rfl|rfl|rfl
      · rw [mem_ruleStep] at hin; exact absurd hin.2 (by decide)
      · rw [mem_ruleStep] at hin; exact absurd hin.2 (by decide)
      · rw [mem_ruleStep] at hin; exact absurd hin.2 (by decide)
      · rw [mem_ruleStep] at hin; exact absurd hin.2 (by decide)
      · exact absurd hin h1
      · rw [mem_ruleStep] at hin; exact absurd hin.2 (by decide)
      · rw [mem_ruleStep] at hin; exact absurd hin.2 (by decide)
      · rw [mem_ruleStep] at hin; exact absurd hin.2 (by decide)
      · rw [mem_ruleStep] at hin; exact absurd hin.2 (by decide)
      · exact absurd hin h3
      · exact absurd hin h2
      · rw [mem_ruleStep] at hin; exact hin.1
      · rw [mem_ruleStep] at hin; exact absurd hin.2 (by decide)
  · intro hlen
    right
    refine ⟨ruleStep ((pathOf url h).length > 80) "Long path or query." 1,
      by simp [rulePieces], ?_⟩
    rw [mem_ruleStep]
    exact ⟨hlen, rfl⟩

/-- Presence of the many-query-parameters reason is equivalent to the
`[?&]` count test on the `url.split(hostname)[1] || ""` text. -/
theorem manyQuery_mem (url h : String) (hg : getHostname url = some h) :
    "Many query parameters." ∈ (analyzeURL url).reasons ↔
      (pathOf url h).countP (fun c => c == '?' || c == '&') ≥ 5 := by
  rw [mem_reasons_iff url h hg]
  have h1 := notMem_tldPiece (r := "Many query parameters.") (by decide) h
  have h2 := notMem_typoPiece (r := "Many query parameters.") (by decide) h
  have h3 : "Many query parameters." ∉ (kwPiece url).1 := by
    rw [mem_kwPiece]
    rintro ⟨k, hk, _, he⟩
    exact kw_ne_fixed k hk _ (by decide) he.symm
  constructor
  · rintro (hf | ⟨p, hp, hin⟩)
    · rw [fmtPiece, mem_ruleStep] at hf
      exact absurd hf.2 (by decide)
    · simp only [rulePieces, List.mem_cons, List.not_mem_nil, or_false] at hp
      rcases hp with rfl|rfl|rfl|rfl|rfl|rfl|rfl|rfl|rfl|rfl|rfl|rfl|rfl
      · rw [mem_ruleStep] at hin; exact absurd hin.2 (by decide)
      · rw [mem_ruleStep] at hin; exact absurd hin.2 (by decide)
      · rw [mem_ruleStep] at hin; exact absurd hin.2 (by decide)
      · rw [mem_ruleStep] at hin; exact absurd hin.2 (by decide)
      · exact absurd hin h1
      · rw [mem_ruleStep] at hin; exact absurd hin.2 (by decide)
      · rw [mem_ruleStep] at hin; exact absurd hin.2 (by decide)
      · rw [mem_ruleStep] at hin; exact absurd hin.2 (by decide)
      · rw [mem_ruleStep] at hin; exact absurd hin.2 (by decide)
      · exact absurd hin h3
      · exact absurd hin h2
      · rw [mem_ruleStep] at hin; exact absurd hin.2 (by decide)
      · rw [mem_ruleStep] at hin; exact hin.1
  · intro hcnt
    right
    refine ⟨ruleStep ((pathOf url h).countP (fun c => c == '?' || c == '&') ≥ 5)
      "Many query parameters." 1, by simp [rulePieces], ?_⟩
    rw [mem_ruleStep]
    exact ⟨hcnt, rfl⟩

/-! ## Claim theorems -/

/-- C1 counterexample: on `http://192.168.1.1/login` the verdict is not
`Suspicious` and the score is not in `[4,8)` — the subdomain rule (four
dot-separated labels) and the digit rule also fire, so the score is 10 and
the verdict `Fraudulent`. -/
theorem c1_counterexample :
    (analyzeURL "http://192.168.1.1/login").verdict ≠ "Suspicious" ∧
      ¬ (analyzeURL "http://192.168.1.1/login").score < 8 := by decide

/-- C1 (amended): `analyzeURL "http://192.168.1.1/login"` returns reasons
containing the raw-IP reason and the keyword reason for `login`, and a
score of at least 7 — but the score is exactly 10 (raw IP 5, multiple
subdomains 2, many digits 1, keyword 2), so the verdict is `Fraudulent`,
not `Suspicious`. -/
theorem c1_ip_login_fraudulent :
    "Uses raw IP address." ∈ (analyzeURL "http://192.168.1.1/login").reasons ∧
    kwReason "login" ∈ (analyzeURL "http://192.168.1.1/login").reasons ∧
    (analyzeURL "http://192.168.1.1/login").score = 10 ∧
    (analyzeURL "http://192.168.1.1/login").verdict = "Fraudulent" := by decide

/-- C2: for every URL the score equals the sum of the fixed weights of
the reasons in the result, and the verdict is the pure function
`verdictOf` of the score except on hostname-parse failure, where it is
forced to `Fraudulent`. -/
theorem c2_score_sum_verdict (url : String) :
    (analyzeURL url).score = ((analyzeURL url).reasons.map weightOfReason).sum ∧
    (getHostname url = none → (analyzeURL url).verdict = "Fraudulent") ∧
    (∀ h, getHostname url = some h →
      (analyzeURL url).verdict = verdictOf (analyzeURL url).score) :=
  ⟨score_eq_weights url, (verdict_cases url).1, (verdict_cases url).2⟩

/-- C2 witness: the invariant evaluated at a concrete URL. -/
theorem c2_witness :
    (analyzeURL "http://a.com").score =
        ((analyzeURL "http://a.com").reasons.map weightOfReason).sum ∧
      (analyzeURL "http://a.com").verdict = verdictOf (analyzeURL "http://a.com").score :=
  ⟨(c2_score_sum_verdict "http://a.com").1,
    (c2_score_sum_verdict "http://a.com").2.2 "a.com" (by decide)⟩

/-- C3: whenever hostname extraction fails, `analyzeURL` appends the fixed
parse-failure reason, adds weight 3, and returns verdict `Fraudulent`,
with no reasons other than the malformed-protocol and parse-failure
texts — so no IP, TLD, keyword, typosquat, or path reasons appear. -/
theorem c3_short_circuit (url : String) (hg : getHostname url = none) :
    (analyzeURL url).verdict = "Fraudulent" ∧
    "Cannot parse hostname." ∈ (analyzeURL url).reasons ∧
    (analyzeURL url).score = (fmtPiece url).2 + 3 ∧
    ∀ r ∈ (analyzeURL url).reasons,
      r = "Malformed or missing protocol." ∨ r = "Cannot parse hostname." := by
  simp only [analyzeURL, hg]
  refine ⟨by simp, by simp, by simp, ?_⟩
  intro r hr
  rcases List.mem_append.mp hr with hr1 | hr2
  · rw [fmtPiece, mem_ruleStep] at hr1
    exact Or.inl hr1.2
  · simp at hr2
    exact Or.inr hr2

/-- C3 witness: the short-circuit at the concrete input
`not a url at all`. -/
theorem c3_witness :
    (analyzeURL "not a url at all").verdict = "Fraudulent" ∧
      "Cannot parse hostname." ∈ (analyzeURL "not a url at all").reasons :=
  ⟨(c3_short_circuit "not a url at all" (by decide)).1,
   (c3_short_circuit "not a url at all" (by decide)).2.1⟩

/-- C4: the verdict mapping is a pure function of the score with
thresholds 8 and 4, and is monotone with respect to the severity order
Safe < Suspicious < Fraudulent. -/
theorem c4_verdict_mapping :
    (∀ s, 8 ≤ s → verdictOf s = "Fraudulent") ∧
    (∀ s, s < 8 → 4 ≤ s → verdictOf s = "Suspicious") ∧
    (∀ s, s < 4 → verdictOf s = "Safe") ∧
    (∀ s1 s2, s1 < s2 → sevRank (verdictOf s1) ≤ sevRank (verdictOf s2)) := by
  have hfr : ∀ s : Nat, 8 ≤ s → verdictOf s = "Fraudulent" := fun s hs => by
    rw [verdictOf, if_pos hs]
  have hsu : ∀ s : Nat, s < 8 → 4 ≤ s → verdictOf s = "Suspicious" := fun s h8 h4 => by
    rw [verdictOf, if_neg (by omega), if_pos h4]
  have hsa : ∀ s : Nat, s < 4 → verdictOf s = "Safe" := fun s h4 => by
    rw [verdictOf, if_neg (by omega), if_neg (by omega)]
  refine ⟨hfr, hsu, hsa, ?_⟩
  intro s1 s2 hlt
  have hrank : ∀ s : Nat, sevRank (verdictOf s) ≤ 2 := fun s => by
    by_cases h8 : 8 ≤ s
    · rw [hfr s h8]; decide
    · by_cases h4 : 4 ≤ s
      · rw [hsu s (by omega) h4]; decide
      · rw [hsa s (by omega)]; decide
  by_cases h8 : 8 ≤ s2
  · rw [hfr s2 h8]
    have := hrank s1
    have h2 : sevRank "Fraudulent" = 2 := by decide
    omega
  · by_cases h4 : 4 ≤ s2
    · rw [hsu s2 (by omega) h4]
      have h1 : sevRank "Suspicious" = 1 := by decide
      by_cases h4' : 4 ≤ s1
      · rw [hsu s1 (by omega) h4']
      · rw [hsa s1 (by omega)]
        have h0 : sevRank "Safe" = 0 := by decide
        omega
    · rw [hsa s2 (by omega), hsa s1 (by omega)]

/-- C4 witness: the mapping and monotonicity at concrete scores. -/
theorem c4_witness :
    verdictOf 9 = "Fraudulent" ∧ verdictOf 5 = "Suspicious" ∧ verdictOf 3 = "Safe" ∧
      sevRank (verdictOf 2) ≤ sevRank (verdictOf 9) :=
  ⟨c4_verdict_mapping.1 9 (by decide), c4_verdict_mapping.2.1 5 (by decide) (by decide),
   c4_verdict_mapping.2.2.1 3 (by decide), c4_verdict_mapping.2.2.2 2 9 (by decide)⟩

/-- C5: `levenshtein a b` is the minimum number of single-character
insertions, deletions, or substitutions transforming `a` into `b`: an edit
sequence of that length exists and no shorter one does; moreover
`levenshtein "" s = s.length`, `levenshtein s s = 0`, and
`levenshtein "kitten" "sitting" = 3`. -/
theorem c5_levenshtein_correct :
    (∀ a b : String, EditSeq (levenshtein a b) a.data b.data ∧
      ∀ n, EditSeq n a.data b.data → levenshtein a b ≤ n) ∧
    (∀ s : String, levenshtein "" s = s.length) ∧
    (∀ s : String, levenshtein s s = 0) ∧
    levenshtein "kitten" "sitting" = 3 := by
  refine ⟨fun a b => ⟨levenshtein_achieves a b, fun n hn => levenshtein_minimal a b hn⟩,
    ?_, ?_, by decide⟩
  · intro s
    rw [levenshtein]
    show levenshteinL [] s.data = s.length
    rw [levenshteinL, if_pos rfl]
    rfl
  · intro s
    rw [levenshtein, levenshteinL_eq_levRec, levRec_self]

/-- C5 witness: minimality and the degenerate identities at concrete
strings, with a concrete one-edit sequence discharging the hypothesis of
the lower bound. -/
theorem c5_witness :
    EditSeq (levenshtein "ab" "b") "ab".data "b".data ∧ levenshtein "a" "b" ≤ 1 ∧
      levenshtein "" "xyz" = 3 ∧ levenshtein "abc" "abc" = 0 :=
  ⟨(c5_levenshtein_correct.1 "ab" "b").1,
   (c5_levenshtein_correct.1 "a" "b").2 1 (.step (EStep.subst [] [] 'a' 'b') (.refl _)),
   c5_levenshtein_correct.2.1 "xyz", c5_levenshtein_correct.2.2.1 "abc"⟩

/-- C6: the typosquat rule never fires when the normalized hostname
equals a popular domain exactly (so `http://go0gle.com` produces no
typosquat reason), it fires for `http://gooogle.com`, and in general it
contributes at most one reason, weight 4 exactly when it fires, stopping
at the first qualifying popular domain. -/
theorem c6_typosquat :
    (∀ h : String, ∀ pd, normalizeHost h = pd.data →
      typoCond (normalizeHost h) pd = false) ∧
    (∀ pd ∈ POPULAR_DOMAINS, typoReason pd ∉ (analyzeURL "http://go0gle.com").reasons) ∧
    typoReason "google.com" ∈ (analyzeURL "http://gooogle.com").reasons ∧
    (∀ h : String, (typoPiece h).1.length ≤ 1 ∧
      (typoPiece h).2 = 4 * (typoPiece h).1.length ∧
      ∀ pd, POPULAR_DOMAINS.find? (typoCond (normalizeHost h)) = some pd →
        typoPiece h = ([typoReason pd], 4) ∧
        ∃ l₁ l₂, POPULAR_DOMAINS = l₁ ++ pd :: l₂ ∧
          typoCond (normalizeHost h) pd = true ∧
          ∀ q ∈ l₁, typoCond (normalizeHost h) q = false) := by
  refine ⟨?_, by decide, by decide, ?_⟩
  · intro h pd hnorm
    rw [typoCond]
    simp [hnorm]
  · intro h
    refine ⟨?_, ?_, ?_⟩
    · unfold typoPiece
      cases POPULAR_DOMAINS.find? (typoCond (normalizeHost h)) <;> simp
    · unfold typoPiece
      cases POPULAR_DOMAINS.find? (typoCond (normalizeHost h)) <;> simp
    · intro pd hf
      refine ⟨by simp [typoPiece, hf], ?_⟩
      exact find?_first _ _ _ hf

/-- C6 witness: the exact-match guard, the go0gle non-firing, and the
first-match characterization at concrete hostnames. -/
theorem c6_witness :
    typoCond (normalizeHost "go0gle.com") "google.com" = false ∧
      typoReason "google.com" ∉ (analyzeURL "http://go0gle.com").reasons ∧
      (typoPiece "gooogle.com").1.length ≤ 1 :=
  ⟨c6_typosquat.1 "go0gle.com" "google.com" (by decide),
   c6_typosquat.2.1 "google.com" (by decide),
   (c6_typosquat.2.2.2 "gooogle.com").1⟩

/-- C7 counterexample: on `hostRecursUrl` the hostname text recurs inside
the path, the text after its first occurrence is longer than 80
characters, yet no long-path reason is emitted — the code measures
`url.split(hostname)[1]`, the segment between the first and second
occurrences, not the whole remainder. -/
theorem c7_counterexample :
    getHostname hostRecursUrl = some "aa.bb" ∧
    ((afterFirstOcc "aa.bb".data hostRecursUrl.data).getD []).length > 80 ∧
    "Long path or query." ∉ (analyzeURL hostRecursUrl).reasons := by decide

/-- C7 (amended): for every URL whose hostname parses, the path rules
operate on `url.split(hostname)[1] || ""` — the segment between the first
and second occurrences of the hostname text (to the end when it occurs
once, empty when it does not occur): the long-path reason appears exactly
when that segment is longer than 80 characters and the query reason
exactly when it contains at least 5 `?`/`&` characters. -/
theorem c7_path_rules (url h : String) (hg : getHostname url = some h) :
    ("Long path or query." ∈ (analyzeURL url).reasons ↔ (pathOf url h).length > 80) ∧
    ("Many query parameters." ∈ (analyzeURL url).reasons ↔
      (pathOf url h).countP (fun c => c == '?' || c == '&') ≥ 5) :=
  ⟨longPath_mem url h hg, manyQuery_mem url h hg⟩

/-- C7 witness: the amended path-rule characterization at the concrete
recurring-hostname URL. -/
theorem c7_witness :
    ("Long path or query." ∈ (analyzeURL hostRecursUrl).reasons ↔
      (pathOf hostRecursUrl "aa.bb").length > 80) ∧
    ("Many query parameters." ∈ (analyzeURL hostRecursUrl).reasons ↔
      (pathOf hostRecursUrl "aa.bb").countP (fun c => c == '?' || c == '&') ≥ 5) :=
  c7_path_rules hostRecursUrl "aa.bb" (by decide)

/-- C8: each configured fraud keyword contributes at most one reason
entry per call (the reasons list never repeats it), the keyword piece
adds exactly 2 per matching keyword, and for URLs with a parsed hostname
the keyword's reason is present exactly when the keyword occurs
case-insensitively in the URL — independently for each keyword. -/
theorem c8_keyword_once (url kw : String) (hkw : kw ∈ FRAUD_KEYWORDS) :
    (analyzeURL url).reasons.count (kwReason kw) ≤ 1 ∧
    (kwPiece url).2 = 2 * (kwPiece url).1.length ∧
    ∀ h, getHostname url = some h →
      (kwReason kw ∈ (analyzeURL url).reasons ↔
        containsL kw.data (lowerL url.data) = true) := by
  refine ⟨List.nodup_iff_count_le_one.mp (reasons_nodup url) _, by simp [kwPiece], ?_⟩
  intro h hg
  exact kw_mem url h kw hg hkw

/-- C8 witness: the per-keyword bound at a concrete URL containing
`login` twice. -/
theorem c8_witness :
    (analyzeURL "http://a.com/login/login").reasons.count (kwReason "login") ≤ 1 ∧
      (kwReason "login" ∈ (analyzeURL "http://a.com/login/login").reasons ↔
        containsL "login".data (lowerL "http://a.com/login/login".data) = true) :=
  ⟨(c8_keyword_once "http://a.com/login/login" "login" (by decide)).1,
   (c8_keyword_once "http://a.com/login/login" "login" (by decide)).2.2 "a.com" (by decide)⟩

/-- C9: `analyzeURL` is total by construction in this embedding (it is a
Lean function on all strings); the empty string fails hostname extraction
and is classified `Fraudulent` via the short-circuit, and every result's
verdict is one of the three levels. -/
theorem c9_total :
    getHostname "" = none ∧
    (analyzeURL "").verdict = "Fraudulent" ∧
    "Cannot parse hostname." ∈ (analyzeURL "").reasons ∧
    ∀ url : String, (analyzeURL url).verdict = "Safe" ∨
      (analyzeURL url).verdict = "Suspicious" ∨
      (analyzeURL url).verdict = "Fraudulent" := by
  refine ⟨by decide, by decide, by decide, ?_⟩
  intro url
  rcases hg : getHostname url with _ | h
  · right; right; exact (verdict_cases url).1 hg
  · rw [(verdict_cases url).2 h hg]
    unfold verdictOf
    split_ifs <;> simp

/-- C10: when hostname extraction fails, the score is exactly 3 with one
reason if the input matched the scheme pattern or the bare `token.token`
pattern, and exactly 4 with two reasons otherwise. -/
theorem c10_failure_score (url : String) (hg : getHostname url = none) :
    ((validSchemeURL url = true ∨ bareDomainLike url = true) →
      (analyzeURL url).score = 3 ∧ (analyzeURL url).reasons.length = 1) ∧
    (¬ (validSchemeURL url = true ∨ bareDomainLike url = true) →
      (analyzeURL url).score = 4 ∧ (analyzeURL url).reasons.length = 2) := by
  simp only [analyzeURL, hg]
  constructor
  · intro hok
    rw [fmtPiece, ruleStep, if_neg (not_not_intro hok)]
    simp
  · intro hbad
    rw [fmtPiece, ruleStep, if_pos hbad]
    simp

/-- C10 witness: the no-format-match branch at `not a url at all`. -/
theorem c10_witness :
    (analyzeURL "not a url at all").score = 4 ∧
      (analyzeURL "not a url at all").reasons.length = 2 :=
  (c10_failure_score "not a url at all" (by decide)).2 (by decide)

end Fraud
